import Mathlib

/-!
Verification development for the `atn` repository (scripts
`check_archives.py` and `generate_candidates.py`).

The scripts are shallowly embedded here: Python strings become `List Char`,
the two regular expressions of `find_mailto_occurrences` become
deterministic recognizers (they contain no genuinely ambiguous
alternation once the scanned email address is assumed not to start with a
whitespace character), HTTP traffic is abstracted as oracles
(`fetch : Str → Option Str` for page bodies, `cdx` for the CDX index), and
file I/O becomes values of type `Option Str` (absent vs. written content).
-/

namespace Atn

/-- Python strings are modelled as lists of characters. -/
abbrev Str := List Char

/-- ASCII model of the character class matched by the regex token
backslash-s (Python whitespace). -/
def pySpace (c : Char) : Bool :=
  c = ' ' || c = '\t' || c = '\n' || c = '\r' || c = '\x0b' || c = '\x0c'

/-- Python's substring test `needle in hay` on strings. -/
def strContains (needle hay : Str) : Bool :=
  if needle.isPrefixOf hay then true
  else
    match hay with
    | [] => false
    | _ :: t => strContains needle t

/-- Python `s.lower()` (character-wise model). -/
def lowerStr (s : Str) : Str := s.map Char.toLower

/-! ## generate_candidates.py : the interesting-URL filter -/

/-- The constant `INTEREST_PATTERNS` of `generate_candidates.py`. -/
def INTEREST_PATTERNS : List Str :=
  [ "web.archive.org".data
  , "teacup.com".data
  , "nifty.com".data
  , "geocities".data
  , "so-net.ne.jp".data
  , "upp.so-net".data
  , "u-page.so-net".data ]

/-- `is_interesting(url, email)` of `generate_candidates.py`:
reject falsy (empty) URLs, else accept when the lowered email is a
substring of the lowered URL or some interest pattern is. -/
def is_interesting (url email : Str) : Bool :=
  if url = [] then false
  else
    let lower := lowerStr url
    if strContains (lowerStr email) lower then true
    else INTEREST_PATTERNS.any (fun p => strContains p lower)

/-! ## check_archives.py : query_cdx

The HTTP interaction of `query_cdx` is abstracted: a successful request
that yielded parseable JSON is `Except.ok` of a JSON value, and every
failure mode caught by the `try` block (network error, the non-200 status
raised by `raise_for_status`, a non-JSON body raised by `r.json()`) is
`Except.error` with the logged message. -/

/-- Minimal JSON value model for the CDX response. -/
inductive J where
  | null : J
  | bool : Bool → J
  | num : Int → J
  | str : Str → J
  | arr : List J → J

/-- One iteration of the row loop of `query_cdx`: rows that are lists of
length at least 2 contribute their first two elements, others are skipped. -/
def rowPair : J → Option (J × J)
  | .arr (a :: b :: _) => some (a, b)
  | _ => none

/-- `query_cdx` of `check_archives.py` over the abstracted HTTP result. -/
def query_cdx (resp : Except Str J) : List (J × J) :=
  match resp with
  | .error _ => []
  | .ok data =>
    match data with
    | .arr rows => if rows.length < 2 then [] else (rows.drop 1).filterMap rowPair
    | _ => []

/-! ## check_archives.py : find_mailto_occurrences

The two regex patterns

  href\s*=\s*["... quote chars ...]\s*mailto\s*:\s*EMAIL\s*[quote chars]
  mailto\s*:\s*EMAIL

(compiled with IGNORECASE, EMAIL escaped) are embedded as recognizers.
Every greedy whitespace run in them is followed by a token that cannot
start with whitespace — provided the email itself does not start with a
whitespace character — so greedy matching with backtracking coincides with
the maximal-munch recognizers below. -/

/-- Consume the literal `lit` case-insensitively (a regex literal under
IGNORECASE) from the front of `s`; return the rest. -/
def eatLit : Str → Str → Option Str
  | [], s => some s
  | _ :: _, [] => none
  | l :: ls, c :: cs => if c.toLower = l.toLower then eatLit ls cs else none

/-- Consume one exact character. -/
def eatChar (x : Char) : Str → Option Str
  | c :: cs => if c = x then some cs else none
  | [] => none

/-- Consume one character of the class `["...]` (double or single quote). -/
def eatQuote : Str → Option Str
  | c :: cs => if c = '"' || c.toNat = 39 then some cs else none
  | [] => none

/-- Greedy whitespace run (the regex token backslash-s star). -/
def eatSpaces (s : Str) : Str := s.dropWhile pySpace

/-- Recognizer for `mailto\s*:\s*EMAIL` starting at the front of `s`. -/
def plainEat (email s : Str) : Option Str :=
  (eatLit "mailto".data s).bind fun s1 =>
  (eatChar ':' (eatSpaces s1)).bind fun s2 =>
  eatLit email (eatSpaces s2)

/-- Recognizer for the anchor-attribute pattern
`href\s*=\s*[quote]\s*mailto\s*:\s*EMAIL\s*[quote]` starting at the front
of `s` (its middle is literally the plain pattern). -/
def hrefEat (email s : Str) : Option Str :=
  (eatLit "href".data s).bind fun s1 =>
  (eatChar '=' (eatSpaces s1)).bind fun s2 =>
  (eatQuote (eatSpaces s2)).bind fun s3 =>
  (plainEat email (eatSpaces s3)).bind fun s4 =>
  eatQuote (eatSpaces s4)

/-- Match of the plain pattern at position `i` of `html`; returns the end
position (exclusive), as a regex match object's `end()` would. -/
def matchPlain (email html : Str) (i : Nat) : Option Nat :=
  (plainEat email (html.drop i)).map fun rest => html.length - rest.length

/-- Match of the anchor pattern at position `i` of `html`; returns the end
position (exclusive). -/
def matchHref (email html : Str) (i : Nat) : Option Nat :=
  (hrefEat email (html.drop i)).map fun rest => html.length - rest.length

/-- One step of `finditer`: repeatedly try the next start position; after a
match continue from its end (bumping by one on an empty match, as Python
does). `fuel` bounds the number of steps. -/
def scanFrom (matchAt : Nat → Option Nat) : Nat → Nat → List (Nat × Nat)
  | 0, _ => []
  | fuel + 1, i =>
    match matchAt i with
    | some j => (i, j) :: scanFrom matchAt fuel (max j (i + 1))
    | none => scanFrom matchAt fuel (i + 1)

/-- `pattern.finditer(html)` for a text of length `n`: all matches, leftmost
first, non-overlapping. -/
def pyFindIter (matchAt : Nat → Option Nat) (n : Nat) : List (Nat × Nat) :=
  scanFrom matchAt (n + 1) 0

/-- `pattern.search(text, lo, hi)` as a Boolean: does a match of `matchAt`
lie entirely within positions `lo..hi`? (Python's `pos`/`endpos`
semantics: the match must start at or after `lo` and end at or before
`hi`.) -/
def searchWithin (matchAt : Nat → Option Nat) (lo hi : Nat) : Bool :=
  (List.range' lo (hi + 1 - lo)).any fun i =>
    match matchAt i with
    | some j => decide (j ≤ hi)
    | none => false

/-- The spans produced by `href_pattern.finditer(html_text)`. -/
def structuredSpans (html email : Str) : List (Nat × Nat) :=
  pyFindIter (matchHref email html) html.length

/-- The spans produced by `plain_pattern.finditer(html_text)`, before the
duplicate-avoidance filter. -/
def plainSpansRaw (html email : Str) : List (Nat × Nat) :=
  pyFindIter (matchPlain email html) html.length

/-- The plain spans that survive the duplicate-avoidance check
`href_pattern.search(html_text, max(0, m.start()-50), min(len, m.end()+50))`
of `find_mailto_occurrences` (a surviving span is reported). -/
def keptPlainSpans (html email : Str) : List (Nat × Nat) :=
  (plainSpansRaw html email).filter fun pq =>
    ! searchWithin (matchHref email html) (pq.1 - 50) (min html.length (pq.2 + 50))

/-- Python slice `s[a:b]` for `a ≤ b` (clamping at the ends for free). -/
def sliceStr (s : Str) (a b : Nat) : Str := (s.drop a).take (b - a)

/-- The character map of `.replace("\r", " ").replace("\n", " ")`. -/
def nlToSpace (c : Char) : Char := if c = '\r' || c = '\n' then ' ' else c

/-- `snippet = html_text[max(0, start-120):min(len, end+120)]` with CR/LF
flattened to spaces, as built for every reported match. -/
def excerptAt (html : Str) (s e : Nat) : Str :=
  (sliceStr html (s - 120) (min html.length (e + 120))).map nlToSpace

/-- All spans reported by `find_mailto_occurrences`: the structured pass
results followed by the surviving plain pass results, in code order. -/
def findMailtoSpans (html email : Str) : List (Nat × Nat) :=
  structuredSpans html email ++ keptPlainSpans html email

/-- `find_mailto_occurrences(html_text, email)`: one `(snippet, m.group(0))`
pair per reported span. -/
def find_mailto_occurrences (html email : Str) : List (Str × Str) :=
  (findMailtoSpans html email).map fun se =>
    (excerptAt html se.1 se.2, sliceStr html se.1 se.2)

/-! ## generate_candidates.py : ddg_search link extraction

`ddg_search` posts a query and walks every `a[href]` of the response. The
HTML fetch/parse is abstracted: the input here is the list of href strings
in document order. The per-href logic is embedded exactly: search for the
regex `uddg=(https?%3A%2F%2F[^&]+)` (case-sensitive), URL-decode its group
on success, otherwise keep the href only when it starts with the literal
`http`. -/

/-- Consume the literal `lit` exactly (case-sensitively). -/
def eatLitExact : Str → Str → Option Str
  | [], s => some s
  | _ :: _, [] => none
  | l :: ls, c :: cs => if c = l then eatLitExact ls cs else none

/-- Match of `uddg=(https?%3A%2F%2F[^&]+)` at the front of `s`, returning
group 1. The greedy optional `s?` is tried first, exactly as the regex
engine backtracks; `[^&]+` takes the maximal nonempty run of
non-ampersand characters. -/
def uddgGroupAt (s : Str) : Option Str :=
  match eatLitExact "uddg=".data s with
  | none => none
  | some s1 =>
    match eatLitExact "http".data s1 with
    | none => none
    | some s2 =>
      match eatLitExact "s%3A%2F%2F".data s2 with
      | some s3 =>
        if (s3.takeWhile fun c => c ≠ '&') = [] then none
        else some ("https%3A%2F%2F".data ++ s3.takeWhile fun c => c ≠ '&')
      | none =>
        match eatLitExact "%3A%2F%2F".data s2 with
        | some s3 =>
          if (s3.takeWhile fun c => c ≠ '&') = [] then none
          else some ("http%3A%2F%2F".data ++ s3.takeWhile fun c => c ≠ '&')
        | none => none

/-- `re.search(r"uddg=(https?%3A%2F%2F[^&]+)", href)`: group 1 of the
leftmost match, if any. -/
def uddgSearch : Str → Option Str
  | [] => none
  | c :: cs =>
    match uddgGroupAt (c :: cs) with
    | some g => some g
    | none => uddgSearch cs

/-- Hexadecimal digit value, as `urllib.parse.unquote` accepts it (both
cases). -/
def hexVal (c : Char) : Option Nat :=
  if '0' ≤ c ∧ c ≤ '9' then some (c.toNat - '0'.toNat)
  else if 'a' ≤ c ∧ c ≤ 'f' then some (c.toNat - 'a'.toNat + 10)
  else if 'A' ≤ c ∧ c ≤ 'F' then some (c.toNat - 'A'.toNat + 10)
  else none

/-- ASCII model of `urllib.parse.unquote` (`requests.utils.unquote`): each
percent-escape of two hex digits becomes the character of that code,
malformed escapes stay verbatim. (Multi-byte UTF-8 escape sequences
decode here byte-wise instead of as one code point; the claims under
verification only involve ASCII escapes.) -/
def pyUnquote : Str → Str
  | '%' :: h1 :: h2 :: rest =>
    match hexVal h1, hexVal h2 with
    | some a, some b => Char.ofNat (16 * a + b) :: pyUnquote rest
    | _, _ => '%' :: pyUnquote (h1 :: h2 :: rest)
  | c :: rest => c :: pyUnquote rest
  | [] => []

/-- The body of the link loop of `ddg_search` for one href. -/
def ddgExtractOne (href : Str) : Option Str :=
  if href = [] then none
  else
    match uddgSearch href with
    | some g => some (pyUnquote g)
    | none => if "http".data.isPrefixOf href then some href else none

/-- The links collected by `ddg_search` from the result page's hrefs (in
document order). -/
def ddg_links (hrefs : List Str) : List Str :=
  hrefs.filterMap ddgExtractOne

/-- Written from the spec's words, for comparison with the code: a link
"begins with an HTTP(S) scheme" when it starts with `http:` or `https:`. -/
def hasHttpScheme (u : Str) : Bool :=
  "http:".data.isPrefixOf u || "https:".data.isPrefixOf u

/-! ## check_archives.py : per-candidate dispatch and main

HTTP is abstracted by two oracles: `fetch url` is the body text of a
successful `fetch_text(url)` (`none` when the request raised, which
`scan_snapshot` catches and turns into no hits), and `cdx url` is the row
list `query_cdx(url)` would return for that query value. Network effects
are recorded as an explicit action trace. -/

/-- One network action of the scanner. -/
inductive NetAct where
  | fetchPage : Str → NetAct
  | cdxQuery : Str → NetAct
deriving DecidableEq

/-- The two mutable accumulators of `main`: the found set (a set of
snapshot URLs, modelled as a duplicate-free list) and the excerpt list of
`(snapshot, full_match, snippet)` rows. -/
structure ScanState where
  found : List Str
  excerpts : List (Str × Str × Str)
deriving DecidableEq

/-- `found_set.add(u)` on the duplicate-free list model of a set. -/
def addFound (l : List Str) (u : Str) : List Str :=
  if u ∈ l then l else l ++ [u]

/-- `scan_snapshot(url, email)`: fetch, return `[]` on a caught fetch
error, else the mailto occurrences of the body. -/
def scan_snapshot (fetch : Str → Option Str) (email url : Str) :
    List (Str × Str) :=
  match fetch url with
  | none => []
  | some html => find_mailto_occurrences html email

/-- The recording step shared by every branch of `process_archive_url`:
`if hits: found_set.add(url); for snip, full in hits:
excerpts.append((url, full, snip))`. -/
def recordHits (st : ScanState) (url : Str) (hits : List (Str × Str)) :
    ScanState :=
  if hits = [] then st
  else
    { found := addFound st.found url
      excerpts := st.excerpts ++ hits.map fun h => (url, h.2, h.1) }

/-- The snapshot URL string built from a CDX row:
`f"https://web.archive.org/web/{ts}id_/{orig}"` (braces elided: the
template prefix, the timestamp, `id_/`, the original URL). -/
def snapUrl (ts orig : Str) : Str :=
  "https://web.archive.org/web/".data ++ ts ++ "id_/".data ++ orig

/-- The snapshot loop shared verbatim by the two CDX branches of
`process_archive_url`: for each row build the snapshot URL, fetch and scan
it, record hits. Returns the new state and the fetch trace. -/
def processRows (fetch : Str → Option Str) (email : Str) :
    List (Str × Str) → ScanState → ScanState × List NetAct
  | [], st => (st, [])
  | r :: rows, st =>
    let snap := snapUrl r.1 r.2
    let hits := scan_snapshot fetch email snap
    let rest := processRows fetch email rows (recordHits st snap hits)
    (rest.1, NetAct.fetchPage snap :: rest.2)

/-- `process_archive_url(url, email, found_set, excerpts)` with its
network trace. -/
def process_archive_url (cdx : Str → List (Str × Str))
    (fetch : Str → Option Str) (email url : Str) (st : ScanState) :
    ScanState × List NetAct :=
  if strContains "web.archive.org".data url then
    if strContains "*".data url then (st, [])
    else
      let hits := scan_snapshot fetch email url
      (recordHits st url hits, [NetAct.fetchPage url])
  else if strContains "*".data url then
    let r := processRows fetch email (cdx url) st
    (r.1, NetAct.cdxQuery url :: r.2)
  else
    let r := processRows fetch email (cdx url) st
    (r.1, NetAct.cdxQuery url :: r.2)

/-- Python `s.strip()` (ASCII whitespace model, matching `pySpace`). -/
def pystrip (s : Str) : Str :=
  ((s.dropWhile pySpace).reverse.dropWhile pySpace).reverse

/-- Universal-newline translation performed by text-mode `open` with the
default `newline=None`: each `\r\n` pair and each lone `\r` becomes a
single `\n` before the text reaches line iteration. -/
def nlTranslate : Str → Str
  | [] => []
  | '\r' :: '\n' :: rest => '\n' :: nlTranslate rest
  | '\r' :: rest => '\n' :: nlTranslate rest
  | c :: rest => c :: nlTranslate rest

/-- Split an (already newline-translated) text into its lines: the pieces
between `\n` characters; a trailing `\n` yields a final empty piece. -/
def splitNl : Str → List Str
  | [] => [[]]
  | c :: cs =>
    if c = '\n' then [] :: splitNl cs
    else
      match splitNl cs with
      | [] => [[c]]
      | h :: t => (c :: h) :: t

/-- `[line.strip() for line in f if line.strip()]` over a text-mode file:
universal-newline translation, then the stripped nonempty lines. -/
def readLines (text : Str) : List Str :=
  ((splitNl (nlTranslate text)).map pystrip).filter fun l => l ≠ []

/-- The `fallback_patterns` constant of `main`. -/
def fallback_patterns : List Str :=
  [ "*cye04720*nifty.com*".data
  , "*.nifty.com/*".data
  , "*.so-net.ne.jp/*nymph*".data
  , "www008.upp.so-net.ne.jp/NYMPH/*".data
  , "www12.u-page.so-net.ne.jp:80/ka3/nymph-/*".data
  , "8028.teacup.com/*".data ]

/-- Outcome of opening the candidates file. -/
inductive FileRead where
  | missing : FileRead
  | content : Str → FileRead

/-- The candidate list read by `main`: a caught `FileNotFoundError` gives
`[]`, else the stripped nonempty lines. -/
def candidatesOf : FileRead → List Str
  | .missing => []
  | .content t => readLines t

/-- Python string `<` (lexicographic by code point). -/
def strLt : Str → Str → Bool
  | [], [] => false
  | [], _ :: _ => true
  | _ :: _, [] => false
  | a :: xs, b :: ys => if a < b then true else if a = b then strLt xs ys else false

/-- Python string `≤` (lexicographic by code point). -/
def strLe : Str → Str → Bool
  | [], _ => true
  | _ :: _, [] => false
  | a :: xs, b :: ys => if a < b then true else if a = b then strLe xs ys else false

/-- Insert into a `strLe`-sorted list. -/
def insertSorted (x : Str) : List Str → List Str
  | [] => [x]
  | y :: ys => if strLe x y then x :: y :: ys else y :: insertSorted x ys

/-- `sorted(l)` for Python strings (insertion sort: any sorting algorithm
models the `sorted` builtin). -/
def pySorted (l : List Str) : List Str := l.foldr insertSorted []

/-- The found-archives file content written by `main`:
`for s in sorted(found): f.write(s + "\n")`. -/
def writeFoundFile (found : List Str) : Str :=
  ((pySorted found).map fun s => s ++ ['\n']).foldr (· ++ ·) []

/-- The excerpt file content written by `main`: per row a `--- snap ---`
header line, a `match:` line, the snippet and a blank line. -/
def writeExcerptFile (excerpts : List (Str × Str × Str)) : Str :=
  (excerpts.map fun e =>
      "--- ".data ++ e.1 ++ " ---\n".data ++
      "match: ".data ++ e.2.1 ++ "\n".data ++
      e.2.2 ++ "\n\n".data).foldr (· ++ ·) []

/-- The candidate loop of `main` (state only; each iteration's exceptions
are caught at this boundary, which the total model needs no case for). -/
def processAll (cdx : Str → List (Str × Str)) (fetch : Str → Option Str)
    (email : Str) (urls : List Str) (st : ScanState) : ScanState :=
  urls.foldl (fun s u => (process_archive_url cdx fetch email u s).1) st

/-- Observable outcome of a `main` run of `check_archives.py`. -/
structure MainResult where
  candidatesUsed : List Str
  found : List Str
  excerpts : List (Str × Str × Str)
  outFile : Option Str
  excerptFile : Option Str
  exitCode : Nat
deriving DecidableEq

/-- `main` of `check_archives.py`: read candidates (falling back to the
built-in patterns when none), process them, re-run the fallback patterns
if nothing was found, and write each output file only when its accumulator
is nonempty (`none` models an untouched file). The script reaches the end
of `main` on every path, so the process exit code is 0. -/
def mainRun (cdx : Str → List (Str × Str)) (fetch : Str → Option Str)
    (email : Str) (fr : FileRead) : MainResult :=
  let candidates := candidatesOf fr
  let used := if candidates = [] then fallback_patterns else candidates
  let st1 := processAll cdx fetch email used ⟨[], []⟩
  let st2 := if st1.found = [] then processAll cdx fetch email fallback_patterns st1 else st1
  { candidatesUsed := used
    found := st2.found
    excerpts := st2.excerpts
    outFile := if st2.found ≠ [] then some (writeFoundFile st2.found) else none
    excerptFile := if st2.excerpts ≠ [] then some (writeExcerptFile st2.excerpts) else none
    exitCode := 0 }

/-! ## Concrete instances used by counterexamples and witnesses -/

/-- A minimal email value. -/
def exEmail : Str := "a@b".data

/-- An anchor attribute with a 60-character whitespace run between `href`
and `=` (legal HTML, tolerated by both regexes). -/
def exHtmlPad : Str :=
  "href".data ++ List.replicate 60 ' ' ++ "=\"mailto:a@b\"".data

/-- A plain anchor attribute for `exEmail`. -/
def exHtmlAnchor : Str := "href=\"mailto:a@b\"".data

/-- A DuckDuckGo-style redirect href. -/
def exRedirHref : Str := "x?uddg=https%3A%2F%2Fexample.com%2Fa&r=1".data

/-- A CDX oracle returning one row for every query. -/
def cdxOne : Str → List (Str × Str) :=
  fun _ => [("20200101000000".data, "http://example.com/".data)]

/-- A CDX oracle returning no rows. -/
def cdxNone : Str → List (Str × Str) := fun _ => []

/-- A fetch oracle serving `exHtmlAnchor` for every URL. -/
def fetchAnchor : Str → Option Str := fun _ => some exHtmlAnchor

/-- A fetch oracle on which every request fails. -/
def fetchNone : Str → Option Str := fun _ => none

/-- A two-element found set, deliberately out of order. -/
def exFound : List Str := ["b".data, "a".data]

/-- A wildcard candidate that is already an archive-domain URL. -/
def exArchWildcard : Str := "https://web.archive.org/web/*/x".data

/-- A plain wildcard CDX pattern. -/
def exWildcard : Str := "*cye04720*".data

/-! ## Helper lemmas -/

theorem strContains_iff {needle hay : Str} :
    strContains needle hay = true ↔ needle <:+: hay := by
  induction hay with
  | nil =>
    rw [strContains]
    constructor
    · intro h
      split at h
      · next hp => exact (List.isPrefixOf_iff_prefix.mp hp).isInfix
      · simp at h
    · intro h
      have : needle = [] := List.eq_nil_of_infix_nil h
      subst this
      simp [List.isPrefixOf]
  | cons c cs ih =>
    rw [strContains]
    split
    · next hp =>
      simp only [true_iff]
      exact (List.isPrefixOf_iff_prefix.mp hp).isInfix
    · next hp =>
      rw [ih]
      constructor
      · intro h
        exact h.trans (List.suffix_cons c cs).isInfix
      · intro h
        rcases h with ⟨s, t, hst⟩
        cases s with
        | nil =>
          exfalso
          apply hp
          exact List.isPrefixOf_iff_prefix.mpr ⟨t, by simpa using hst⟩
        | cons x xs =>
          exact ⟨xs, t, by simpa using congrArg List.tail hst⟩

/-- C9: `is_interesting` returns `True` for a URL exactly when the email's
lowercase form is a substring of the lowercased URL, or some member of the
fixed interesting-domain fragment list is a substring of the lowercased
URL; an empty (falsy) URL is rejected. -/
theorem C9_is_interesting_iff (url email : Str) :
    is_interesting url email = true ↔
      url ≠ [] ∧
        (lowerStr email <:+: lowerStr url ∨
          ∃ p ∈ INTEREST_PATTERNS, p <:+: lowerStr url) := by
  by_cases hu : url = []
  · simp [is_interesting, hu]
  · cases hsc : strContains (lowerStr email) (lowerStr url) with
    | true =>
      simp [is_interesting, hu, hsc, strContains_iff.mp hsc]
    | false =>
      have hni : ¬ lowerStr email <:+: lowerStr url := by
        rw [← strContains_iff]; simp [hsc]
      simp [is_interesting, hu, hsc, hni, List.any_eq_true, strContains_iff]

/-- C4: `query_cdx` is total over the abstracted request outcome (it never
raises): every caught failure yields `[]`, a non-list body yields `[]`, a
list of fewer than 2 rows yields `[]`, and otherwise each non-header row
that is a list of length at least 2 contributes exactly the pair of its
first two elements while every other row is skipped. -/
theorem C4_query_cdx_shape :
    (∀ e, query_cdx (Except.error e) = []) ∧
    query_cdx (Except.ok J.null) = [] ∧
    (∀ b, query_cdx (Except.ok (J.bool b)) = []) ∧
    (∀ n, query_cdx (Except.ok (J.num n)) = []) ∧
    (∀ s, query_cdx (Except.ok (J.str s)) = []) ∧
    query_cdx (Except.ok (J.arr [])) = [] ∧
    (∀ r0, query_cdx (Except.ok (J.arr [r0])) = []) ∧
    (∀ r0 r1 rs, query_cdx (Except.ok (J.arr (r0 :: r1 :: rs))) =
      (r1 :: rs).filterMap rowPair) ∧
    (∀ row a b, rowPair row = some (a, b) ↔ ∃ rest, row = J.arr (a :: b :: rest)) := by
  refine ⟨fun e => rfl, rfl, fun b => rfl, fun n => rfl, fun s => rfl, rfl,
    fun r0 => rfl, fun r0 r1 rs => ?_, fun row a b => ?_⟩
  · simp only [query_cdx, List.length_cons]
    rw [if_neg (by omega)]
    rfl
  · cases row with
    | null => simp [rowPair]
    | bool b2 => simp [rowPair]
    | num n2 => simp [rowPair]
    | str s2 => simp [rowPair]
    | arr xs =>
      match xs with
      | [] => simp [rowPair]
      | [x] => simp [rowPair]
      | x :: y :: rest =>
        simp only [rowPair, Option.some.injEq, Prod.mk.injEq, J.arr.injEq,
          List.cons.injEq]
        constructor
        · rintro ⟨rfl, rfl⟩
          exact ⟨rest, rfl, rfl, rfl⟩
        · rintro ⟨r, rfl, rfl, _⟩
          exact ⟨rfl, rfl⟩

theorem scanFrom_sound {matchAt : Nat → Option Nat} :
    ∀ {fuel i : Nat} {se : Nat × Nat}, se ∈ scanFrom matchAt fuel i →
      matchAt se.1 = some se.2 ∧ i ≤ se.1 := by
  intro fuel
  induction fuel with
  | zero => intro i se h; simp [scanFrom] at h
  | succ f ih =>
    intro i se h
    rw [scanFrom] at h
    cases hm : matchAt i with
    | some j =>
      rw [hm] at h
      rcases List.mem_cons.mp h with h | h
      · subst h
        exact ⟨hm, le_refl _⟩
      · exact ⟨(ih h).1, le_trans (le_trans (Nat.le_succ i) (le_max_right j (i + 1))) (ih h).2⟩
    | none =>
      rw [hm] at h
      exact ⟨(ih h).1, le_trans (Nat.le_succ i) (ih h).2⟩

theorem scanFrom_chain {matchAt : Nat → Option Nat} :
    ∀ fuel i, List.Pairwise (fun a b : Nat × Nat => a.2 ≤ b.1) (scanFrom matchAt fuel i) := by
  intro fuel
  induction fuel with
  | zero => intro i; simp [scanFrom]
  | succ f ih =>
    intro i
    rw [scanFrom]
    cases hm : matchAt i with
    | some j =>
      refine List.Pairwise.cons ?_ (ih _)
      intro se hse
      exact le_trans (le_max_left j (i + 1)) (scanFrom_sound hse).2
    | none => exact ih _

theorem scanFrom_cover {matchAt : Nat → Option Nat}
    (hlt : ∀ i j, matchAt i = some j → i < j) :
    ∀ fuel i p q, i ≤ p → matchAt p = some q → p + 1 ≤ i + fuel →
      ∃ se ∈ scanFrom matchAt fuel i, se.1 ≤ p ∧ p < se.2 := by
  intro fuel
  induction fuel with
  | zero => intro i p q hip hp hfuel; omega
  | succ f ih =>
    intro i p q hip hp hfuel
    rw [scanFrom]
    cases hm : matchAt i with
    | some j =>
      by_cases hcase : p < max j (i + 1)
      · refine ⟨(i, j), List.mem_cons_self _ _, hip, ?_⟩
        have hij := hlt i j hm
        have hpq := hlt p q hp
        rcases Nat.lt_or_ge p j with h | h
        · exact h
        · have hpi : p = i := by omega
          subst hpi
          rw [hp] at hm
          omega
      · obtain ⟨se, hmem, h1, h2⟩ :=
          ih (max j (i + 1)) p q (by omega) hp (by omega)
        exact ⟨se, List.mem_cons_of_mem _ hmem, h1, h2⟩
    | none =>
      have hne : p ≠ i := by
        rintro rfl
        rw [hp] at hm
        cases hm
      exact ih (i + 1) p q (by omega) hp (by omega)

theorem eatLit_length : ∀ {l s r : Str}, eatLit l s = some r →
    r.length + l.length = s.length := by
  intro l
  induction l with
  | nil =>
    intro s r h
    simp only [eatLit, Option.some.injEq] at h
    subst h
    simp
  | cons x xs ih =>
    intro s r h
    cases s with
    | nil => simp [eatLit] at h
    | cons c cs =>
      by_cases hc : c.toLower = x.toLower
      · rw [eatLit, if_pos hc] at h
        have := ih h
        simp only [List.length_cons]
        omega
      · rw [eatLit, if_neg hc] at h
        cases h

theorem eatChar_length {x : Char} {s r : Str} (h : eatChar x s = some r) :
    r.length + 1 = s.length := by
  cases s with
  | nil => simp [eatChar] at h
  | cons c cs =>
    by_cases hc : c = x
    · rw [eatChar, if_pos hc] at h
      cases h
      simp
    · rw [eatChar, if_neg hc] at h
      cases h

theorem eatQuote_length {s r : Str} (h : eatQuote s = some r) :
    r.length + 1 = s.length := by
  cases s with
  | nil => simp [eatQuote] at h
  | cons c cs =>
    by_cases hc : (c = '"' || c.toNat = 39) = true
    · rw [eatQuote, if_pos hc] at h
      cases h
      simp
    · rw [eatQuote, if_neg hc] at h
      cases h

theorem eatSpaces_length {s : Str} : (eatSpaces s).length ≤ s.length :=
  (List.dropWhile_suffix pySpace).length_le

theorem plainEat_length {email s r : Str} (h : plainEat email s = some r) :
    r.length + 7 ≤ s.length := by
  unfold plainEat at h
  rcases Option.bind_eq_some.mp h with ⟨s1, h1, h⟩
  rcases Option.bind_eq_some.mp h with ⟨s2, h2, h3⟩
  have l1 := eatLit_length h1
  have l2 := eatChar_length h2
  have l3 := eatLit_length h3
  have e1 : (eatSpaces s1).length ≤ s1.length := eatSpaces_length
  have e2 : (eatSpaces s2).length ≤ s2.length := eatSpaces_length
  have hm : ("mailto".data).length = 6 := rfl
  omega

theorem hrefEat_length {email s r : Str} (h : hrefEat email s = some r) :
    r.length + 14 ≤ s.length := by
  unfold hrefEat at h
  rcases Option.bind_eq_some.mp h with ⟨s1, h1, h⟩
  rcases Option.bind_eq_some.mp h with ⟨s2, h2, h⟩
  rcases Option.bind_eq_some.mp h with ⟨s3, h3, h⟩
  rcases Option.bind_eq_some.mp h with ⟨s4, h4, h5⟩
  have l1 := eatLit_length h1
  have l2 := eatChar_length h2
  have l3 := eatQuote_length h3
  have l4 := plainEat_length h4
  have l5 := eatQuote_length h5
  have e1 : (eatSpaces s1).length ≤ s1.length := eatSpaces_length
  have e2 : (eatSpaces s2).length ≤ s2.length := eatSpaces_length
  have e3 : (eatSpaces s3).length ≤ s3.length := eatSpaces_length
  have e4 : (eatSpaces s4).length ≤ s4.length := eatSpaces_length
  have hh : ("href".data).length = 4 := rfl
  omega

theorem matchHref_bounds {email html : Str} {i j : Nat}
    (h : matchHref email html i = some j) : i < j ∧ j ≤ html.length := by
  unfold matchHref at h
  rcases Option.map_eq_some'.mp h with ⟨r, hr, rfl⟩
  have hl := hrefEat_length hr
  have hd : (html.drop i).length = html.length - i := List.length_drop i html
  omega

theorem matchPlain_bounds {email html : Str} {i j : Nat}
    (h : matchPlain email html i = some j) : i < j ∧ j ≤ html.length := by
  unfold matchPlain at h
  rcases Option.map_eq_some'.mp h with ⟨r, hr, rfl⟩
  have hl := plainEat_length hr
  have hd : (html.drop i).length = html.length - i := List.length_drop i html
  omega

theorem searchWithin_true {m : Nat → Option Nat} {lo hi s e : Nat}
    (hm : m s = some e) (h1 : lo ≤ s) (h2 : s ≤ hi) (h3 : e ≤ hi) :
    searchWithin m lo hi = true := by
  unfold searchWithin
  rw [List.any_eq_true]
  refine ⟨s, List.mem_range'_1.mpr ⟨h1, by omega⟩, ?_⟩
  rw [hm]
  simp [h3]

/-- C1 counterexample: in `exHtmlPad` (an anchor whose `href` token is
separated from `=` by 60 spaces) the single anchor occurrence is captured
by the structured pass as span `(0, 77)`, yet the plain pass reports the
span `(66, 76)` — which lies inside that structured capture — a second
time, because no structured match fits inside the dedup search window
`[66 - 50, 76 + 50]`. `find_mailto_occurrences` hence returns two results
for one occurrence. -/
theorem C1_counterexample :
    structuredSpans exHtmlPad exEmail = [(0, 77)] ∧
    keptPlainSpans exHtmlPad exEmail = [(66, 76)] ∧
    (find_mailto_occurrences exHtmlPad exEmail).length = 2 := by
  refine ⟨by decide, by decide, by decide⟩

/-- C1 (amended): the structured pass reports exactly one match per
occurrence — every reported structured span is a genuine nonempty match
of the anchor pattern (soundness), the reported spans are mutually
disjoint, and every position where the anchor pattern matches lies inside
a reported span (completeness) — and the plain pass excludes a plain
match whenever some structured match lies entirely within the window from
50 before the plain start to 50 past the plain end (clamped to the body);
in particular an occurrence captured by a structured match that fits that
window is never double-reported. -/
theorem C1_amended_matches (html email : Str) :
    (∀ se ∈ structuredSpans html email,
        matchHref email html se.1 = some se.2 ∧ se.1 < se.2) ∧
    List.Pairwise (fun a b : Nat × Nat => a.2 ≤ b.1) (structuredSpans html email) ∧
    (∀ p q, matchHref email html p = some q →
        ∃ se ∈ structuredSpans html email, se.1 ≤ p ∧ p < se.2) ∧
    (∀ pq ∈ plainSpansRaw html email, ∀ s e,
        matchHref email html s = some e → pq.1 - 50 ≤ s →
        e ≤ min html.length (pq.2 + 50) →
        pq ∉ keptPlainSpans html email) := by
  have hlt : ∀ i j, matchHref email html i = some j → i < j :=
    fun i j h => (matchHref_bounds h).1
  refine ⟨?_, scanFrom_chain _ _, ?_, ?_⟩
  · intro se hse
    have h := (scanFrom_sound hse).1
    exact ⟨h, hlt _ _ h⟩
  · intro p q hpq
    have hb := matchHref_bounds hpq
    exact scanFrom_cover hlt (html.length + 1) 0 p q (Nat.zero_le p) hpq (by omega)
  · intro pq hpq s e hse h1 h2 hmem
    have hsw : searchWithin (matchHref email html) (pq.1 - 50)
        (min html.length (pq.2 + 50)) = true := by
      have hb := matchHref_bounds hse
      exact searchWithin_true hse h1 (by omega) h2
    have := (List.mem_filter.mp hmem).2
    rw [hsw] at this
    cases this

/-- C1 witness: in the plain anchor `exHtmlAnchor` the structured match
`(0, 17)` fits the dedup window of the raw plain match `(6, 16)`, so the
amended theorem yields that the plain pass does not report it again. -/
theorem C1_amended_matches_witness :
    (6, 16) ∉ keptPlainSpans exHtmlAnchor exEmail :=
  (C1_amended_matches exHtmlAnchor exEmail).2.2.2 (6, 16) (by decide) 0 17
    (by decide) (by decide) (by decide)

/-- C3: for every reported match span, the excerpt is the body sliced to
the window from 120 before the span start to 120 past the span end,
clamped to the body's bounds (its length is exactly the clamped window
width — truncated, never padded, and total, never an index error), with
each in-window character preserved except carriage returns and line feeds,
which become spaces; the excerpt contains no CR and no LF; and the pair
(excerpt, matched text slice) is what `find_mailto_occurrences` reports
for that span. -/
theorem C3_excerpt_window (html email : Str) :
    ∀ se ∈ findMailtoSpans html email,
      (excerptAt html se.1 se.2).length =
          min html.length (se.2 + 120) - (se.1 - 120) ∧
      (∀ k, k < min html.length (se.2 + 120) - (se.1 - 120) →
          (excerptAt html se.1 se.2)[k]? =
            (html[se.1 - 120 + k]?).map nlToSpace) ∧
      '\r' ∉ excerptAt html se.1 se.2 ∧
      '\n' ∉ excerptAt html se.1 se.2 ∧
      (excerptAt html se.1 se.2, sliceStr html se.1 se.2) ∈
        find_mailto_occurrences html email := by
  intro se hse
  have hb : min html.length (se.2 + 120) ≤ html.length := min_le_left _ _
  refine ⟨?_, ?_, ?_, ?_, ?_⟩
  · simp only [excerptAt, sliceStr, List.length_map, List.length_take,
      List.length_drop]
    omega
  · intro k hk
    simp only [excerptAt, sliceStr, List.getElem?_map, List.getElem?_take,
      List.getElem?_drop]
    rw [if_pos hk]
  · intro hmem
    rcases List.mem_map.mp hmem with ⟨c, _, hc⟩
    unfold nlToSpace at hc
    by_cases h : (c = '\r' || c = '\n') = true
    · rw [if_pos h] at hc; cases hc
    · rw [if_neg h] at hc
      subst hc
      simp at h
  · intro hmem
    rcases List.mem_map.mp hmem with ⟨c, _, hc⟩
    unfold nlToSpace at hc
    by_cases h : (c = '\r' || c = '\n') = true
    · rw [if_pos h] at hc; cases hc
    · rw [if_neg h] at hc
      subst hc
      simp at h
  · exact List.mem_map_of_mem _ hse

/-- C3 witness: the excerpt of the structured match of `exHtmlAnchor` has
the clamped window length and carries no line-break characters. -/
theorem C3_excerpt_window_witness :
    (excerptAt exHtmlAnchor 0 17).length =
        min exHtmlAnchor.length (17 + 120) - (0 - 120) ∧
    '\r' ∉ excerptAt exHtmlAnchor 0 17 :=
  ⟨(C3_excerpt_window exHtmlAnchor exEmail (0, 17) (by decide)).1,
   (C3_excerpt_window exHtmlAnchor exEmail (0, 17) (by decide)).2.2.1⟩

theorem mem_addFound {l : List Str} {v u : Str} :
    u ∈ addFound l v ↔ u ∈ l ∨ u = v := by
  unfold addFound
  split
  · next hv =>
    constructor
    · exact Or.inl
    · rintro (h | rfl)
      · exact h
      · exact hv
  · simp

theorem recordHits_found_mem {st : ScanState} {url : Str}
    {hits : List (Str × Str)} {u : Str} :
    u ∈ (recordHits st url hits).found ↔
      u ∈ st.found ∨ (hits ≠ [] ∧ u = url) := by
  unfold recordHits
  split
  · next h => simp [h]
  · next h => simp [mem_addFound, h]

theorem processRows_trace {fetch : Str → Option Str} {email : Str} :
    ∀ (rows : List (Str × Str)) (st : ScanState),
      (processRows fetch email rows st).2 =
        rows.map fun r => NetAct.fetchPage (snapUrl r.1 r.2) := by
  intro rows
  induction rows with
  | nil => intro st; rfl
  | cons r rows ih =>
    intro st
    simp only [processRows, List.map_cons, ih]

theorem processRows_found_mem {fetch : Str → Option Str} {email : Str} :
    ∀ (rows : List (Str × Str)) (st : ScanState) (u : Str),
      u ∈ (processRows fetch email rows st).1.found ↔
        u ∈ st.found ∨
          ∃ r ∈ rows, u = snapUrl r.1 r.2 ∧
            scan_snapshot fetch email (snapUrl r.1 r.2) ≠ [] := by
  intro rows
  induction rows with
  | nil => intro st u; simp [processRows]
  | cons r rows ih =>
    intro st u
    simp only [processRows]
    rw [ih, recordHits_found_mem, List.exists_mem_cons_iff]
    tauto

theorem snapUrl_contains_arch (ts orig : Str) :
    strContains "web.archive.org".data (snapUrl ts orig) = true := by
  rw [strContains_iff]
  have h1 : strContains "web.archive.org".data
      "https://web.archive.org/web/".data = true := by decide
  have h2 := strContains_iff.mp h1
  unfold snapUrl
  rw [List.append_assoc, List.append_assoc]
  exact h2.trans (List.prefix_append _ _).isInfix

/-- C2: the dispatcher never performs a direct fetch of a URL containing a
`*`: when the URL also contains the archive host the candidate is skipped
entirely (unchanged state, empty network trace — no fetch, no CDX query);
otherwise the literal pattern string is passed to the CDX resolver as the
query value and the only page fetches are of the snapshot URLs derived
from the resolver rows, none of which equals the literal pattern. -/
theorem C2_wildcard_never_direct (cdx : Str → List (Str × Str))
    (fetch : Str → Option Str) (email url : Str) (st : ScanState)
    (hstar : strContains "*".data url = true) :
    (strContains "web.archive.org".data url = true →
      process_archive_url cdx fetch email url st = (st, [])) ∧
    (strContains "web.archive.org".data url = false →
      (process_archive_url cdx fetch email url st).2 =
        NetAct.cdxQuery url ::
          (cdx url).map (fun r => NetAct.fetchPage (snapUrl r.1 r.2)) ∧
      ∀ a ∈ (process_archive_url cdx fetch email url st).2,
        a ≠ NetAct.fetchPage url) := by
  constructor
  · intro harch
    unfold process_archive_url
    rw [if_pos harch, if_pos hstar]
  · intro harch
    unfold process_archive_url
    rw [if_neg (by simp [harch]), ite_self]
    refine ⟨?_, ?_⟩
    · show NetAct.cdxQuery url :: (processRows fetch email (cdx url) st).2 = _
      rw [processRows_trace]
    · intro a ha
      rcases List.mem_cons.mp ha with rfl | ha
      · intro hcon; cases hcon
      · have ha2 : a ∈ (processRows fetch email (cdx url) st).2 := ha
        rw [processRows_trace] at ha2
        rcases List.mem_map.mp ha2 with ⟨r, hr, rfl⟩
        intro hcon
        have hequ : snapUrl r.1 r.2 = url := by
          injection hcon
        have harc := snapUrl_contains_arch r.1 r.2
        rw [hequ, harch] at harc
        cases harc

/-- C2 witness: an archive-domain wildcard candidate is skipped with no
state change and no network action. -/
theorem C2_wildcard_never_direct_witness :
    process_archive_url cdxOne fetchAnchor exEmail exArchWildcard ⟨[], []⟩ =
      (⟨[], []⟩, []) :=
  (C2_wildcard_never_direct cdxOne fetchAnchor exEmail exArchWildcard ⟨[], []⟩
    (by decide)).1 (by decide)

/-- C5: for a candidate without the archive host (both the wildcard-pattern
branch and the ordinary original-URL branch), the network trace is the CDX
query followed by exactly one fetch per resolver row of the canonical
snapshot URL string `https://web.archive.org/web/` + timestamp + `id_/` +
originalURL, and the found set afterwards holds exactly its previous
members plus those canonical snapshot URLs whose scan produced hits. -/
theorem C5_snapshot_url_form (cdx : Str → List (Str × Str))
    (fetch : Str → Option Str) (email url : Str) (st : ScanState)
    (harch : strContains "web.archive.org".data url = false) :
    (process_archive_url cdx fetch email url st).2 =
      NetAct.cdxQuery url ::
        (cdx url).map (fun r =>
          NetAct.fetchPage
            ("https://web.archive.org/web/".data ++ r.1 ++ "id_/".data ++ r.2)) ∧
    ∀ u, u ∈ (process_archive_url cdx fetch email url st).1.found ↔
      u ∈ st.found ∨
        ∃ r ∈ cdx url,
          u = "https://web.archive.org/web/".data ++ r.1 ++ "id_/".data ++ r.2 ∧
          scan_snapshot fetch email u ≠ [] := by
  unfold process_archive_url
  rw [if_neg (by simp [harch]), ite_self]
  constructor
  · show NetAct.cdxQuery url :: (processRows fetch email (cdx url) st).2 = _
    rw [processRows_trace]
    simp [snapUrl]
  · intro u
    show u ∈ (processRows fetch email (cdx url) st).1.found ↔ _
    rw [processRows_found_mem]
    constructor
    · rintro (h | ⟨r, hr, rfl, hs⟩)
      · exact Or.inl h
      · exact Or.inr ⟨r, hr, rfl, hs⟩
    · rintro (h | ⟨r, hr, rfl, hs⟩)
      · exact Or.inl h
      · exact Or.inr ⟨r, hr, rfl, hs⟩

/-- C5 witness: with a one-row resolver the trace is the CDX query followed
by the fetch of the canonical snapshot URL. -/
theorem C5_snapshot_url_form_witness :
    (process_archive_url cdxOne fetchAnchor exEmail exWildcard ⟨[], []⟩).2 =
      [NetAct.cdxQuery exWildcard,
       NetAct.fetchPage
         ("https://web.archive.org/web/".data ++ "20200101000000".data ++
           "id_/".data ++ "http://example.com/".data)] :=
  ((C5_snapshot_url_form cdxOne fetchAnchor exEmail exWildcard ⟨[], []⟩
    (by decide)).1).trans (by decide)

/-- C7: when the candidates file is missing, `main` of the
excerpt-capturing scanner proceeds with its built-in fallback pattern list
as the candidate list and finishes with exit code 0 (no error exit). -/
theorem C7_missing_candidates_fallback (cdx : Str → List (Str × Str))
    (fetch : Str → Option Str) (email : Str) :
    (mainRun cdx fetch email FileRead.missing).candidatesUsed =
        fallback_patterns ∧
    (mainRun cdx fetch email FileRead.missing).exitCode = 0 := by
  constructor
  · simp [mainRun, candidatesOf]
  · rfl

/-- C10: when the accumulated found set is empty at the end of a run the
found-archives file is not written at all, and when the accumulated
excerpt list is empty the excerpt file is not written at all. -/
theorem C10_empty_accumulators_no_write (cdx : Str → List (Str × Str))
    (fetch : Str → Option Str) (email : Str) (fr : FileRead) :
    ((mainRun cdx fetch email fr).found = [] →
      (mainRun cdx fetch email fr).outFile = none) ∧
    ((mainRun cdx fetch email fr).excerpts = [] →
      (mainRun cdx fetch email fr).excerptFile = none) := by
  constructor
  · intro h
    simp only [mainRun] at h ⊢
    simp [h]
  · intro h
    simp only [mainRun] at h ⊢
    simp [h]

/-- C10 witness: with an empty resolver and failing fetches, a run from a
missing candidates file touches neither output file. -/
theorem C10_empty_accumulators_no_write_witness :
    (mainRun cdxNone fetchNone exEmail FileRead.missing).outFile = none ∧
    (mainRun cdxNone fetchNone exEmail FileRead.missing).excerptFile = none :=
  ⟨(C10_empty_accumulators_no_write cdxNone fetchNone exEmail
      FileRead.missing).1 (by decide),
   (C10_empty_accumulators_no_write cdxNone fetchNone exEmail
      FileRead.missing).2 (by decide)⟩

theorem uddgGroupAt_shape {s g : Str} (h : uddgGroupAt s = some g) :
    ∃ t, t ≠ [] ∧
      (g = "http%3A%2F%2F".data ++ t ∨ g = "https%3A%2F%2F".data ++ t) := by
  unfold uddgGroupAt at h
  split at h
  · cases h
  · split at h
    · cases h
    · split at h
      · split at h
        · cases h
        · next ht =>
          injection h with h
          exact ⟨_, ht, Or.inr h.symm⟩
      · split at h
        · split at h
          · cases h
          · next ht =>
            injection h with h
            exact ⟨_, ht, Or.inl h.symm⟩
        · cases h

theorem uddgSearch_shape {s g : Str} (h : uddgSearch s = some g) :
    ∃ t, t ≠ [] ∧
      (g = "http%3A%2F%2F".data ++ t ∨ g = "https%3A%2F%2F".data ++ t) := by
  induction s with
  | nil => cases h
  | cons c cs ih =>
    rw [uddgSearch] at h
    cases hg : uddgGroupAt (c :: cs) with
    | some g2 =>
      rw [hg] at h
      injection h with h
      subst h
      exact uddgGroupAt_shape hg
    | none =>
      rw [hg] at h
      exact ih h

theorem pyUnquote_http (t : Str) :
    pyUnquote ("http%3A%2F%2F".data ++ t) = "http://".data ++ pyUnquote t := rfl

theorem pyUnquote_https (t : Str) :
    pyUnquote ("https%3A%2F%2F".data ++ t) = "https://".data ++ pyUnquote t := rfl

theorem hasHttpScheme_http (x : Str) :
    hasHttpScheme ("http://".data ++ x) = true := rfl

theorem hasHttpScheme_https (x : Str) :
    hasHttpScheme ("https://".data ++ x) = true := by
  unfold hasHttpScheme
  have : "https:".data.isPrefixOf ("https://".data ++ x) = true := rfl
  rw [this, Bool.or_true]

/-- C8 counterexample: the href `httpx` carries no redirect parameter and
does not begin with an HTTP(S) scheme, yet the POST-based extraction
accepts it, because the code tests only for the literal prefix `http`. -/
theorem C8_counterexample :
    ddg_links ["httpx".data] = ["httpx".data] ∧
    hasHttpScheme "httpx".data = false :=
  ⟨by decide, by decide⟩

/-- C8 (amended): for every href of the POST-based result page: when the
href carries the `uddg=` redirect parameter wrapping a percent-encoded
http(s) URL, the extracted link is its percent-decoding (and begins with
an HTTP(S) scheme); otherwise the href is accepted exactly when it begins
with the literal prefix `http` (a strictly weaker test than an HTTP(S)
scheme); every other href is dropped. -/
theorem C8_amended_links (hrefs : List Str) (href : Str) (hmem : href ∈ hrefs)
    (hne : href ≠ []) :
    (∀ g, uddgSearch href = some g →
        pyUnquote g ∈ ddg_links hrefs ∧ hasHttpScheme (pyUnquote g) = true) ∧
    (uddgSearch href = none → "http".data.isPrefixOf href = true →
        href ∈ ddg_links hrefs) ∧
    (uddgSearch href = none → "http".data.isPrefixOf href = false →
        ddg_links [href] = []) := by
  refine ⟨?_, ?_, ?_⟩
  · intro g hg
    constructor
    · rw [ddg_links, List.mem_filterMap]
      refine ⟨href, hmem, ?_⟩
      unfold ddgExtractOne
      rw [if_neg hne, hg]
    · rcases uddgSearch_shape hg with ⟨t, htne, rfl | rfl⟩
      · rw [pyUnquote_http]
        exact hasHttpScheme_http _
      · rw [pyUnquote_https]
        exact hasHttpScheme_https _
  · intro hn hp
    rw [ddg_links, List.mem_filterMap]
    refine ⟨href, hmem, ?_⟩
    unfold ddgExtractOne
    rw [if_neg hne, hn, hp]
    simp
  · intro hn hp
    simp [ddg_links, ddgExtractOne, hne, hn, hp]

/-- C8 witness: a DuckDuckGo redirect href yields the percent-decoded
destination, which is a well-formed https URL. -/
theorem C8_amended_links_witness :
    "https://example.com/a".data ∈ ddg_links [exRedirHref] ∧
    hasHttpScheme "https://example.com/a".data = true := by
  have h := (C8_amended_links [exRedirHref] exRedirHref
      (List.mem_singleton.mpr rfl) (by decide)).1
    "https%3A%2F%2Fexample.com%2Fa".data (by decide)
  exact ⟨h.1, h.2⟩

theorem strLe_total : ∀ a b : Str, strLe a b = true ∨ strLe b a = true := by
  intro a
  induction a with
  | nil => intro b; left; rfl
  | cons x xs ih =>
    intro b
    cases b with
    | nil => right; rfl
    | cons y ys =>
      rcases lt_trichotomy x y with h | h | h
      · left; rw [strLe, if_pos h]
      · subst h
        rcases ih ys with h2 | h2
        · left; rw [strLe, if_neg (lt_irrefl x), if_pos rfl]; exact h2
        · right; rw [strLe, if_neg (lt_irrefl x), if_pos rfl]; exact h2
      · right; rw [strLe, if_pos h]

theorem strLe_trans : ∀ {a b c : Str},
    strLe a b = true → strLe b c = true → strLe a c = true := by
  intro a
  induction a with
  | nil => intro b c h1 h2; rfl
  | cons x xs ih =>
    intro b c h1 h2
    cases b with
    | nil => rw [strLe] at h1; cases h1
    | cons y ys =>
      cases c with
      | nil => rw [strLe] at h2; cases h2
      | cons z zs =>
        rw [strLe] at h1 h2 ⊢
        by_cases hxy : x < y
        · by_cases hyz : y < z
          · rw [if_pos (lt_trans hxy hyz)]
          · by_cases hyz2 : y = z
            · subst hyz2; rw [if_pos hxy]
            · rw [if_neg hyz, if_neg hyz2] at h2; cases h2
        · by_cases hxy2 : x = y
          · subst hxy2
            rw [if_neg hxy, if_pos rfl] at h1
            by_cases hxz : x < z
            · rw [if_pos hxz]
            · by_cases hxz2 : x = z
              · subst hxz2
                rw [if_neg hxz, if_pos rfl] at h2 ⊢
                exact ih h1 h2
              · rw [if_neg hxz, if_neg hxz2] at h2; cases h2
          · rw [if_neg hxy, if_neg hxy2] at h1; cases h1

theorem mem_insertSorted {x u : Str} : ∀ {l : List Str},
    u ∈ insertSorted x l ↔ u = x ∨ u ∈ l := by
  intro l
  induction l with
  | nil => simp [insertSorted]
  | cons y ys ih =>
    rw [insertSorted]
    by_cases hle : strLe x y = true
    · rw [if_pos hle]
      simp only [List.mem_cons]
    · rw [if_neg hle]
      simp only [List.mem_cons, ih]
      tauto

theorem insertSorted_perm (x : Str) : ∀ (l : List Str),
    (insertSorted x l).Perm (x :: l) := by
  intro l
  induction l with
  | nil => exact List.Perm.refl _
  | cons y ys ih =>
    rw [insertSorted]
    by_cases hle : strLe x y = true
    · rw [if_pos hle]
    · rw [if_neg hle]
      exact (ih.cons y).trans (List.Perm.swap x y ys)

theorem pySorted_perm : ∀ (l : List Str), (pySorted l).Perm l := by
  intro l
  induction l with
  | nil => exact List.Perm.refl _
  | cons x xs ih =>
    have : pySorted (x :: xs) = insertSorted x (pySorted xs) := rfl
    rw [this]
    exact (insertSorted_perm x (pySorted xs)).trans (ih.cons x)

theorem pairwise_insertSorted {x : Str} {l : List Str}
    (hs : List.Pairwise (fun a b => strLe a b = true) l) :
    List.Pairwise (fun a b => strLe a b = true) (insertSorted x l) := by
  induction l with
  | nil => simp [insertSorted]
  | cons y ys ih =>
    rw [insertSorted]
    rcases List.pairwise_cons.mp hs with ⟨hy, hys⟩
    by_cases hle : strLe x y = true
    · rw [if_pos hle]
      refine List.Pairwise.cons ?_ hs
      intro z hz
      rcases List.mem_cons.mp hz with rfl | hz
      · exact hle
      · exact strLe_trans hle (hy z hz)
    · rw [if_neg hle]
      refine List.Pairwise.cons ?_ (ih hys)
      intro z hz
      rcases mem_insertSorted.mp hz with rfl | hz
      · rcases strLe_total z y with h | h
        · exact absurd h hle
        · exact h
      · exact hy z hz

theorem pySorted_pairwise : ∀ (l : List Str),
    List.Pairwise (fun a b => strLe a b = true) (pySorted l) := by
  intro l
  induction l with
  | nil => simp [pySorted]
  | cons x xs ih => exact pairwise_insertSorted ih

theorem splitNl_append {u t : Str} (h : '\n' ∉ u) :
    splitNl (u ++ '\n' :: t) = u :: splitNl t := by
  induction u with
  | nil => simp [splitNl]
  | cons c cs ih =>
    have hc : ¬ c = '\n' := by
      rintro rfl
      exact h (List.mem_cons_self _ _)
    have h2 : '\n' ∉ cs := fun hm => h (List.mem_cons_of_mem _ hm)
    rw [List.cons_append, splitNl, if_neg hc, ih h2]

theorem splitNl_joinLines : ∀ {l : List Str}, (∀ u ∈ l, '\n' ∉ u) →
    splitNl ((l.map fun s => s ++ ['\n']).foldr (· ++ ·) []) = l ++ [[]] := by
  intro l
  induction l with
  | nil => intro h; rfl
  | cons u us ih =>
    intro h
    simp only [List.map_cons, List.foldr_cons]
    rw [show (u ++ ['\n']) ++ ((us.map fun s => s ++ ['\n']).foldr (· ++ ·) []) =
        u ++ '\n' :: ((us.map fun s => s ++ ['\n']).foldr (· ++ ·) []) from by
      simp]
    rw [splitNl_append (h u (List.mem_cons_self _ _)),
      ih fun v hv => h v (List.mem_cons_of_mem _ hv)]
    rfl

theorem nlTranslate_cons_ne {c : Char} {cs : Str} (hc : c ≠ '\r') :
    nlTranslate (c :: cs) = c :: nlTranslate cs := by
  cases cs with
  | nil => simp [nlTranslate, hc]
  | cons c2 rest => simp [nlTranslate, hc]

theorem nlTranslate_no_cr : ∀ {s : Str}, '\r' ∉ s → nlTranslate s = s := by
  intro s
  induction s with
  | nil => intro h; rfl
  | cons c cs ih =>
    intro h
    have hc : c ≠ '\r' := by
      rintro rfl
      exact h (List.mem_cons_self _ _)
    rw [nlTranslate_cons_ne hc, ih fun hm => h (List.mem_cons_of_mem _ hm)]

theorem no_cr_joinLines : ∀ {l : List Str}, (∀ u ∈ l, '\r' ∉ u) →
    '\r' ∉ (l.map fun s => s ++ ['\n']).foldr (· ++ ·) [] := by
  intro l
  induction l with
  | nil => intro h; simp
  | cons u us ih =>
    intro h
    simp only [List.map_cons, List.foldr_cons]
    intro hm
    rcases List.mem_append.mp hm with hm2 | hm2
    · rcases List.mem_append.mp hm2 with hm3 | hm3
      · exact h u (List.mem_cons_self _ _) hm3
      · simp at hm3
    · exact ih (fun v hv => h v (List.mem_cons_of_mem _ hv)) hm2

theorem readLines_writeFound {found : List Str}
    (hwf : ∀ u ∈ found, u ≠ [] ∧ '\n' ∉ u ∧ '\r' ∉ u ∧ pystrip u = u) :
    readLines (writeFoundFile found) = pySorted found := by
  have hs : ∀ u ∈ pySorted found, u ≠ [] ∧ '\n' ∉ u ∧ '\r' ∉ u ∧ pystrip u = u :=
    fun u hu => hwf u ((pySorted_perm found).mem_iff.mp hu)
  unfold readLines writeFoundFile
  rw [nlTranslate_no_cr (no_cr_joinLines fun u hu => (hs u hu).2.2.1)]
  rw [splitNl_joinLines fun u hu => (hs u hu).2.1]
  rw [List.map_append]
  have hmap : (pySorted found).map pystrip = pySorted found := by
    have hc := List.map_congr_left fun a ha => (hs a ha).2.2.2
    rw [hc]
    exact List.map_id' _
  rw [hmap]
  rw [show ([[]] : List Str).map pystrip = [[]] from rfl]
  rw [List.filter_append]
  rw [List.filter_eq_self.mpr fun a ha => by
    simpa using (hs a ha).1]
  rw [show List.filter (fun l => decide (l ≠ [])) [([] : Str)] = [] from rfl]
  rw [List.append_nil]

/-- C6: writing the found set to the found-archives file (one URL per
line) and reading the file back with the candidate-file reader (stripped
lines, blanks ignored) yields the sorted enumeration of exactly the
original set — the same elements (a permutation of a duplicate-free list),
still duplicate-free — and the written line sequence is lexicographically
sorted. The reader performs universal-newline translation, so the
well-formedness hypotheses say the members are genuine URLs as the set
invariably stores them: nonempty, free of both line-break characters
(LF and CR), and whitespace-trimmed. -/
theorem C6_roundtrip (found : List Str) (hnd : found.Nodup)
    (hwf : ∀ u ∈ found, u ≠ [] ∧ '\n' ∉ u ∧ '\r' ∉ u ∧ pystrip u = u) :
    readLines (writeFoundFile found) = pySorted found ∧
    (readLines (writeFoundFile found)).Perm found ∧
    (readLines (writeFoundFile found)).Nodup ∧
    List.Pairwise (fun a b => strLe a b = true)
      (readLines (writeFoundFile found)) := by
  have hr := readLines_writeFound hwf
  refine ⟨hr, ?_, ?_, ?_⟩
  · rw [hr]
    exact pySorted_perm found
  · rw [hr]
    exact ((pySorted_perm found).nodup_iff).mpr hnd
  · rw [hr]
    exact pySorted_pairwise found

/-- C6 witness: the two-element set written and read back comes out as the
same set, sorted. -/
theorem C6_roundtrip_witness :
    readLines (writeFoundFile exFound) = pySorted exFound ∧
    (readLines (writeFoundFile exFound)).Perm exFound :=
  ⟨(C6_roundtrip exFound (by decide) (by decide)).1,
   (C6_roundtrip exFound (by decide) (by decide)).2.1⟩

end Atn
